import Mathlib

/-!
Verification of the lineage-encoding scheme and tree-query algorithms of
`taxonomylite.py` (class `Taxonomy`), as a shallow embedding.

The SQLite relation `taxonomy(taxa_id, taxa_name, parent_taxa, rank, lineage)`
is modelled as a list of `Row`s.  Python strings holding lineage data are
modelled as `List Char`; `str(n)` for a nonnegative integer is `natStr n`;
SQL `LIKE '%pat%'` on these strings (which contain only digits and the
letter z, so neither case folding nor the `%`/`_` wildcards matter) is
substring containment, computed by `hasSubCL`.  The `while` loop of
`Taxonomy.lineage` is given explicit fuel; `none` means the loop has not
terminated within the fuel.  Fallible Python operations (`list.remove`,
`fetchone` on an empty cursor) return `Option`.
-/

/-- One row of the `taxonomy` table (`CREATE TABLE taxonomy (taxa_id INTEGER
PRIMARY KEY, taxa_name, parent_taxa, rank, lineage)`). -/
structure Row where
  taxa_id : Nat
  taxa_name : String
  parent_taxa : Nat
  rank : String
  lineage : List Char
deriving DecidableEq

/-- The whole `taxonomy` table, in row order. -/
abbrev Store := List Row

/-- The module constant `SEP_TOKEN = "zzz"`. -/
def sepToken : List Char := ['z', 'z', 'z']

/-- Decimal digits of `n`, least significant first, with explicit fuel so the
definition is structural (the fuel `n` itself always suffices). -/
def digitsRevAux : Nat → Nat → List Nat
  | 0, _ => []
  | fuel + 1, n => if n = 0 then [] else n % 10 :: digitsRevAux fuel (n / 10)

/-- Model of Python `str(n)` for the nonnegative integers stored in the
`taxa_id` / `parent_taxa` columns: the decimal digit string of `n`. -/
def natStr (n : Nat) : List Char :=
  if n = 0 then ['0'] else ((digitsRevAux n n).reverse.map Nat.digitChar)

/-- Model of Python `sep.join(strings)`: the pieces joined with `sep`
between consecutive pieces (no leading or trailing `sep`). -/
def joinSep (sep : List Char) : List (List Char) → List Char
  | [] => []
  | [x] => x
  | x :: y :: rest => x ++ sep ++ joinSep sep (y :: rest)

/-- The string stored in the `lineage` column by `_construct_lineage`:
`self.sep + self.sep.join(map(str, lineage)) + self.sep`. -/
def lineageString (sep : List Char) (path : List Nat) : List Char :=
  sep ++ joinSep sep (path.map natStr) ++ sep

/-- The delimiter-wrapped pattern `"%{sep}{tid}{sep}%"` used by `is_parent`
and by `children(..., deep=True)` (without the surrounding `%` wildcards,
which make SQL `LIKE` into substring containment). -/
def wrapPat (sep : List Char) (n : Nat) : List Char := sep ++ natStr n ++ sep

/-- Helper recursion for `lineageString sepToken` on nonempty paths:
`lchain [x1, ..., xk] = zzz x1 zzz x2 ... zzz xk zzz` and `lchain [] = zzz`. -/
def lchain : List Nat → List Char
  | [] => sepToken
  | x :: xs => sepToken ++ natStr x ++ lchain xs

/-- Boolean test that `p` is a leading segment of `l`. -/
def hasPrefixCL : List Char → List Char → Bool
  | [], _ => true
  | _ :: _, [] => false
  | c :: p, d :: l => c == d && hasPrefixCL p l

/-- Boolean substring containment: the effect of SQL `lineage LIKE '%pat%'`
on the lineage strings (which contain only decimal digits and lowercase z,
so `LIKE`'s ASCII case folding and its `%`/`_` wildcards are inert). -/
def hasSubCL (p : List Char) : List Char → Bool
  | [] => hasPrefixCL p []
  | d :: l => hasPrefixCL p (d :: l) || hasSubCL p l

/-- `Taxonomy.parent`: `SELECT parent_taxa FROM taxonomy WHERE taxa_id = ?`
with `fetchone`, i.e. the `parent_taxa` field of the first row whose
`taxa_id` matches, or `none`. -/
def parent (db : Store) (tid : Nat) : Option Nat :=
  (db.find? (fun r => r.taxa_id == tid)).map Row.parent_taxa

/-- The `while tid != 1` loop of `Taxonomy.lineage`, with explicit fuel:
append the parent and continue until the current id is 1 (the hardcoded
root) or the parent lookup returns nothing.  `none` means the loop did not
terminate within `fuel` steps. -/
def lineageLoop (db : Store) : Nat → Nat → List Nat → Option (List Nat)
  | 0, _, _ => none
  | fuel + 1, tid, path =>
    if tid = 1 then some path
    else
      match parent db tid with
      | none => some path
      | some p => lineageLoop db fuel p (path ++ [p])

/-- `Taxonomy.lineage(tid)`: run the parent-walk loop starting from
`path = [tid]` and return the reversed accumulated path (root first,
`tid` last). -/
def lineage (db : Store) (fuel tid : Nat) : Option (List Nat) :=
  (lineageLoop db fuel tid [tid]).map List.reverse

/-- `Taxonomy._construct_lineage` restricted to the rows still to process:
every row's `lineage` column is set to
`self.sep + self.sep.join(map(str, self.lineage(taxa_id))) + self.sep`,
where the paths are computed against the full table `db0` (the `UPDATE`
only changes the `lineage` column, which the parent walk never reads).
During `from_source` the separator is the default `"zzz"` (`sepToken`). -/
def constructLineage (db0 : Store) (fuel : Nat) : Store → Option Store
  | [] => some []
  | r :: rest =>
    match lineage db0 fuel r.taxa_id with
    | none => none
    | some p =>
      match constructLineage db0 fuel rest with
      | none => none
      | some rest' =>
        some (Row.mk r.taxa_id r.taxa_name r.parent_taxa r.rank
          (lineageString sepToken p) :: rest')

/-- The lineage-population step of `Taxonomy.from_source`: apply
`_construct_lineage` to the whole table. -/
def buildLineages (db : Store) (fuel : Nat) : Option Store :=
  constructLineage db fuel db

/-- `Taxonomy.name_to_tid`: `SELECT taxa_id FROM taxonomy WHERE taxa_name = ?`
with `fetchone`; `none` when absent. -/
def name_to_tid (db : Store) (name : String) : Option Nat :=
  (db.find? (fun r => r.taxa_name == name)).map Row.taxa_id

/-- `Taxonomy.tid_to_name`: `SELECT taxa_name FROM taxonomy WHERE taxa_id = ?`
with `fetchone`; `none` when absent. -/
def tid_to_name (db : Store) (tid : Nat) : Option String :=
  (db.find? (fun r => r.taxa_id == tid)).map Row.taxa_name

/-- `Taxonomy.tid_to_rank`: `SELECT rank FROM taxonomy WHERE taxa_id = ?`
with `fetchone`; `none` when absent. -/
def tid_to_rank (db : Store) (tid : Nat) : Option String :=
  (db.find? (fun r => r.taxa_id == tid)).map Row.rank

/-- `Taxonomy.is_parent(child_tid, parent_tid)`: true iff some row has
`taxa_id = child_tid` and its lineage contains
`"%{sep}{parent_tid}{sep}%"` (the `try ... .next() ... except
StopIteration` idiom is an existence test). -/
def is_parent (sep : List Char) (db : Store) (child_tid parent_tid : Nat) : Bool :=
  db.any (fun r => r.taxa_id == child_tid && hasSubCL (wrapPat sep parent_tid) r.lineage)

/-- `Taxonomy.is_child(child_tid, parent_tid)`: the body is literally
`return self.is_parent(parent_tid, parent_tid)`. -/
def is_child (sep : List Char) (db : Store) (child_tid parent_tid : Nat) : Bool :=
  is_parent sep db parent_tid parent_tid

/-- `Taxonomy.children(tid, deep)`: with `deep`, all `taxa_id`s of rows whose
lineage contains the wrapped pattern, skipping `tid` itself; otherwise all
`taxa_id`s of rows with `parent_taxa = tid`, in table order. -/
def children (sep : List Char) (db : Store) (tid : Nat) (deep : Bool) : List Nat :=
  if deep then
    (db.filter (fun r => hasSubCL (wrapPat sep tid) r.lineage && r.taxa_id != tid)).map
      Row.taxa_id
  else
    (db.filter (fun r => r.parent_taxa == tid)).map Row.taxa_id

/-- `self.children(x)` where `x` may be Python `None` (as in `siblings` and
`relatives`): `SELECT ... WHERE parent_taxa = NULL` matches no row. -/
def childrenOfOpt (sep : List Char) (db : Store) : Option Nat → List Nat
  | none => []
  | some t => children sep db t false

/-- Python `list.remove(x)`: drop the first occurrence of `x`, or raise
`ValueError` (modelled as `none`) when `x` is absent. -/
def pyRemove (l : List Nat) (x : Nat) : Option (List Nat) :=
  if x ∈ l then some (l.erase x) else none

/-- `Taxonomy.siblings(tid)`: `children(parent(tid))` with `tid` removed;
`none` models the `ValueError` that `siblings.remove(tid)` raises when
`tid` is not in the child list. -/
def siblings (sep : List Char) (db : Store) (tid : Nat) : Option (List Nat) :=
  pyRemove (childrenOfOpt sep db (parent db tid)) tid

/-- `self.parent(root)` where `root` may already be Python `None`
(`SELECT ... WHERE taxa_id = NULL` matches no row, so `None` propagates). -/
def parentOfOpt (db : Store) (o : Option Nat) : Option Nat :=
  o.bind (fun t => parent db t)

/-- The `for i in range(degree * 2)` loop of `Taxonomy.relatives`: extend the
result with the current layer and replace it by the concatenation of the
shallow child lists of its entries. -/
def relativesLoop (sep : List Char) (db : Store) : Nat → List (Option Nat) → List (Option Nat)
  | 0, _ => []
  | n + 1, cur =>
    cur ++ relativesLoop sep db n (cur.flatMap (fun e => (childrenOfOpt sep db e).map some))

/-- `Taxonomy.relatives(tid, degree)`: walk up `degree` levels from
`parent(tid)`, then run the layer loop `degree * 2` times starting from
that ancestor.  Entries are `Option Nat` because the initial ancestor can
be Python `None` when the parent chain is too short. -/
def relatives (sep : List Char) (db : Store) (tid degree : Nat) : List (Option Nat) :=
  relativesLoop sep db (degree * 2) [(parentOfOpt db)^[degree] (parent db tid)]

/-- Breadth-first layer `n` below the node list `cur`: apply "concatenate the
shallow child lists" `n` times.  Used to state what `relatives` returns. -/
def nthLayer (sep : List Char) (db : Store) : Nat → List Nat → List Nat
  | 0, cur => cur
  | n + 1, cur => nthLayer sep db n (cur.flatMap (fun t => children sep db t false))

/-- The inner `for j, tidb in enumerate(blineage[::-1])` loop of
`Taxonomy.nearest_common_ancestor`, entered with outer index `i` and outer
value `tida`; `j` is the current inner index. -/
def innerScan (i tida : Nat) : Nat → List Nat → Option (Nat × Nat)
  | _, [] => none
  | j, tidb :: rest =>
    if tida = tidb then some (i + j, tida) else innerScan i tida (j + 1) rest

/-- The outer `for i, tida in enumerate(alineage[::-1])` loop of
`Taxonomy.nearest_common_ancestor`; `i` is the current outer index. -/
def outerScan : Nat → List Nat → List Nat → Option (Nat × Nat)
  | _, [], _ => none
  | i, tida :: rest, brev =>
    match innerScan i tida 0 brev with
    | some res => some res
    | none => outerScan (i + 1) rest brev

/-- `Taxonomy.nearest_common_ancestor(a, b)`: reverse both lineages and run
the nested scan.  The outer `Option` is the fuel bound on the two lineage
walks; the inner `Option` is the Python return value, `None` when both
loops fall through without a match. -/
def nearestCommonAncestor (db : Store) (fuel a b : Nat) : Option (Option (Nat × Nat)) :=
  match lineage db fuel a, lineage db fuel b with
  | some la, some lb => some (outerScan 0 la.reverse lb.reverse)
  | _, _ => none

/-- A dynamically typed Python value as it flows through `Taxonomy.__init__`:
either a string or a fetched cursor row (a tuple of column values). -/
inductive PyVal where
  | pstr : List Char → PyVal
  | prow : List (List Char) → PyVal

/-- Python `re.split(r'\d', x)[0]`: on a string, the prefix before the first
decimal digit; on any non-string value (such as the row tuple produced by
`cursor.next()`), `re.split` raises `TypeError` (modelled as `none`). -/
def reSplitHead : PyVal → Option (List Char)
  | PyVal.pstr s => some (s.takeWhile (fun c => !c.isDigit))
  | PyVal.prow _ => none

/-- The separator computation of `Taxonomy.__init__`:
`base_lineage = self.execute("SELECT lineage ... taxa_id = 1").next()` yields
the row tuple `(lineage,)` — not the lineage string — and that tuple is
passed to `re.split`, so the bare `except` also catches the resulting
`TypeError` and falls back to `self.sep = 'zzz'`. -/
def taxonomyInitSep (db : Store) : List Char :=
  match db.find? (fun r => r.taxa_id == 1) with
  | none => sepToken
  | some r =>
    match reSplitHead (PyVal.prow [r.lineage]) with
    | none => sepToken
    | some s => s

/-- What the spec prescribes for the reopened-store separator: the prefix of
the root's stored lineage before its first digit, with `"zzz"` only as the
fallback when the root's lineage cannot be read. -/
def specInitSep (db : Store) : List Char :=
  match db.find? (fun r => r.taxa_id == 1) with
  | none => sepToken
  | some r => r.lineage.takeWhile (fun c => !c.isDigit)

/-- The child-edge relation of the stored table: `c` is returned by
`children(p, deep=False)`. -/
def childStep (sep : List Char) (db : Store) (p c : Nat) : Prop :=
  c ∈ children sep db p false

/-- The raw child-edge relation on rows: some row has id `c` and parent `p`. -/
def stepRel (db : Store) (p c : Nat) : Prop :=
  ∃ r, r ∈ db ∧ r.taxa_id = c ∧ r.parent_taxa = p

/-- Demo tree from the spec's testable-properties section: `1 -> 2 -> 4` and
`1 -> 3`, the root's parent being itself as in the NCBI dump. -/
def dbDemo : Store :=
  [Row.mk 1 "root" 1 "no rank" [],
   Row.mk 2 "Bacteria" 1 "superkingdom" [],
   Row.mk 3 "Archaea" 1 "superkingdom" [],
   Row.mk 4 "Proteobacteria" 2 "phylum" []]

/-- The demo tree after `_construct_lineage`. -/
def dbDemoBuilt : Store := (buildLineages dbDemo 5).getD []

/-- A store whose root lineage was written with separator `qqq`, used to
exhibit the separator-rederivation bug in `Taxonomy.__init__`. -/
def dbQQQ : Store :=
  [Row.mk 1 "root" 1 "no rank" ['q', 'q', 'q', '1', 'q', 'q', 'q']]

theorem digitsRevAux_eq_digits (fuel : Nat) :
    ∀ n : Nat, n ≤ fuel → digitsRevAux fuel n = Nat.digits 10 n := by
  induction fuel with
  | zero =>
    intro n hn
    interval_cases n
    simp [digitsRevAux]
  | succ fuel ih =>
    intro n hn
    by_cases h0 : n = 0
    · simp [digitsRevAux, h0]
    · have hpos : 0 < n := Nat.pos_of_ne_zero h0
      have hdiv : n / 10 ≤ fuel := by
        have := Nat.div_lt_self hpos (by norm_num : (1 : Nat) < 10)
        omega
      rw [digitsRevAux, if_neg h0, ih (n / 10) hdiv,
        Nat.digits_def' (by norm_num : (1 : Nat) < 10) hpos]

theorem natStr_ne_nil (n : Nat) : natStr n ≠ [] := by
  unfold natStr
  by_cases h0 : n = 0
  · simp [h0]
  · have : Nat.digits 10 n ≠ [] := Nat.digits_ne_nil_iff_ne_zero.mpr h0
    simp [h0, digitsRevAux_eq_digits n n (Nat.le_refl n)]
    intro hcon
    exact this hcon

theorem mem_natStr (c : Char) (n : Nat) (hc : c ∈ natStr n) :
    ∃ d, d < 10 ∧ c = Nat.digitChar d := by
  unfold natStr at hc
  by_cases h0 : n = 0
  · rw [if_pos h0] at hc
    simp at hc
    exact ⟨0, by norm_num, by simp [hc, Nat.digitChar]⟩
  · rw [if_neg h0, digitsRevAux_eq_digits n n (Nat.le_refl n)] at hc
    simp only [List.mem_map, List.mem_reverse] at hc
    obtain ⟨d, hd, hdc⟩ := hc
    exact ⟨d, Nat.digits_lt_base (by norm_num) hd, hdc.symm⟩

theorem digitChar_ne_z : ∀ d, d < 10 → Nat.digitChar d ≠ 'z' := by decide

theorem mem_natStr_ne_z (c : Char) (n : Nat) (hc : c ∈ natStr n) : c ≠ 'z' := by
  obtain ⟨d, hd, rfl⟩ := mem_natStr c n hc
  exact digitChar_ne_z d hd

theorem digitChar_inj :
    ∀ d₁, d₁ < 10 → ∀ d₂, d₂ < 10 → Nat.digitChar d₁ = Nat.digitChar d₂ → d₁ = d₂ := by
  decide

theorem map_digitChar_inj :
    ∀ l₁ l₂ : List Nat, (∀ x ∈ l₁, x < 10) → (∀ x ∈ l₂, x < 10) →
      l₁.map Nat.digitChar = l₂.map Nat.digitChar → l₁ = l₂ := by
  intro l₁
  induction l₁ with
  | nil =>
    intro l₂ _ _ h
    cases l₂ with
    | nil => rfl
    | cons b t => simp at h
  | cons a t ih =>
    intro l₂ h₁ h₂ h
    cases l₂ with
    | nil => simp at h
    | cons b t₂ =>
      simp only [List.map_cons, List.cons.injEq] at h
      have hab : a = b :=
        digitChar_inj a (h₁ a (by simp)) b (h₂ b (by simp)) h.1
      have := ih t₂ (fun x hx => h₁ x (by simp [hx]))
        (fun x hx => h₂ x (by simp [hx])) h.2
      rw [hab, this]

theorem natStr_inj (a b : Nat) (h : natStr a = natStr b) : a = b := by
  have key : ∀ n : Nat, n ≠ 0 →
      natStr n = (Nat.digits 10 n).reverse.map Nat.digitChar := by
    intro n hn
    unfold natStr
    rw [if_neg hn, digitsRevAux_eq_digits n n (Nat.le_refl n)]
  have zcase : ∀ n : Nat, n ≠ 0 → natStr n ≠ ['0'] := by
    intro n hn hcon
    rw [key n hn] at hcon
    have hdig : (Nat.digits 10 n).reverse = [0] := by
      apply map_digitChar_inj
      · intro x hx
        exact Nat.digits_lt_base (by norm_num) (List.mem_reverse.mp hx)
      · intro x hx
        simp at hx
        omega
      · simpa [Nat.digitChar] using hcon
    have : Nat.digits 10 n = [0] := by
      have := congrArg List.reverse hdig
      simpa using this
    have hzero : n = 0 := by
      have hofd := Nat.ofDigits_digits 10 n
      rw [this] at hofd
      simpa [Nat.ofDigits] using hofd.symm
    exact hn hzero
  by_cases ha : a = 0
  · by_cases hb : b = 0
    · rw [ha, hb]
    · exfalso
      apply zcase b hb
      rw [← h, ha]
      simp [natStr]
  · by_cases hb : b = 0
    · exfalso
      apply zcase a ha
      rw [h, hb]
      simp [natStr]
    · rw [key a ha, key b hb] at h
      have hrev : (Nat.digits 10 a).reverse = (Nat.digits 10 b).reverse := by
        apply map_digitChar_inj _ _ _ _ h
        · intro x hx
          exact Nat.digits_lt_base (by norm_num) (List.mem_reverse.mp hx)
        · intro x hx
          exact Nat.digits_lt_base (by norm_num) (List.mem_reverse.mp hx)
      have hdig : Nat.digits 10 a = Nat.digits 10 b := List.reverse_inj.mp hrev
      have := congrArg (Nat.ofDigits 10) hdig
      rwa [Nat.ofDigits_digits, Nat.ofDigits_digits] at this

theorem lchain_eq_sep_cons (xs : List Nat) : ∃ r, lchain xs = sepToken ++ r := by
  cases xs with
  | nil => exact ⟨[], rfl⟩
  | cons y ys => exact ⟨natStr y ++ lchain ys, rfl⟩

theorem lchain_head_z (xs : List Nat) : ∃ r, lchain xs = 'z' :: r := by
  obtain ⟨r, hr⟩ := lchain_eq_sep_cons xs
  exact ⟨'z' :: 'z' :: r, by rw [hr]; rfl⟩

theorem lineageString_eq_lchain :
    ∀ (xs : List Nat) (x : Nat), lineageString sepToken (x :: xs) = lchain (x :: xs) := by
  intro xs
  induction xs with
  | nil =>
    intro x
    simp [lineageString, joinSep, lchain, List.append_assoc]
  | cons y ys ih =>
    intro x
    have hy := ih y
    simp only [lineageString, List.map_cons, joinSep, lchain] at hy ⊢
    rw [← hy]
    simp [List.append_assoc]

theorem wrap_infix_of_mem (a : Nat) :
    ∀ path : List Nat, a ∈ path → wrapPat sepToken a <:+: lchain path := by
  intro path
  induction path with
  | nil => intro h; simp at h
  | cons x xs ih =>
    intro h
    rcases List.mem_cons.mp h with hax | hmem
    · obtain ⟨r, hr⟩ := lchain_eq_sep_cons xs
      refine ⟨[], r, ?_⟩
      rw [lchain, hr, hax]
      simp [wrapPat, List.append_assoc]
    · obtain ⟨s, t, hst⟩ := ih hmem
      refine ⟨sepToken ++ natStr x ++ s, t, ?_⟩
      rw [lchain, ← hst]
      simp [List.append_assoc]

theorem mem_of_wrap_inside (a : Nat) :
    ∀ path : List Nat, wrapPat sepToken a <:+: lchain path → a ∈ path := by
  intro path
  induction path with
  | nil =>
    intro h
    obtain ⟨s, t, hst⟩ := h
    exfalso
    have hlen := congrArg List.length hst
    have hpos : 0 < (natStr a).length :=
      List.length_pos.mpr (natStr_ne_nil a)
    simp [wrapPat, sepToken, lchain] at hlen
    omega
  | cons x xs ih =>
    intro h
    obtain ⟨s, t, hst⟩ := h
    have hxne : natStr x ≠ [] := natStr_ne_nil x
    have hane : natStr a ≠ [] := natStr_ne_nil a
    match s with
    | [] =>
      -- the match starts at position 0: the wrapped id must be x itself
      simp only [List.nil_append, lchain, wrapPat, sepToken] at hst
      have hst' : natStr a ++ (['z', 'z', 'z'] ++ t) = natStr x ++ lchain xs := by
        have := hst
        simp only [List.append_assoc] at this ⊢
        simpa [List.cons.injEq] using this
      rcases List.append_eq_append_iff.mp hst' with ⟨w, hw1, hw2⟩ | ⟨w, hw1, hw2⟩
      · match w with
        | [] =>
          have hax : a = x := natStr_inj a x (by simpa using hw1.symm)
          rw [hax]
          exact List.mem_cons_self x xs
        | c :: w' =>
          exfalso
          have hcx : c ∈ natStr x := by rw [hw1]; simp
          have : c = 'z' := by
            have := hw2
            simp [List.cons.injEq] at this
            exact this.1.symm
          exact mem_natStr_ne_z c x hcx this
      · match w with
        | [] =>
          have hax : a = x := natStr_inj a x (by simpa using hw1)
          rw [hax]
          exact List.mem_cons_self x xs
        | c :: w' =>
          exfalso
          have hca : c ∈ natStr a := by rw [hw1]; simp
          obtain ⟨r, hr⟩ := lchain_head_z xs
          have : c = 'z' := by
            have := hw2
            rw [hr] at this
            simp [List.cons.injEq] at this
            exact this.1.symm
          exact mem_natStr_ne_z c a hca this
    | [c1] =>
      -- a match cannot start at offset 1 inside the leading separator
      exfalso
      simp only [lchain, wrapPat, sepToken, List.cons_append, List.nil_append,
        List.append_assoc, List.cons.injEq] at hst
      obtain ⟨-, h2, h3⟩ := hst
      obtain ⟨cx, tx, hx⟩ := List.exists_cons_of_ne_nil hxne
      rw [hx] at h3
      simp [List.cons.injEq] at h3
      exact mem_natStr_ne_z cx x (by rw [hx]; simp) h3.1.symm
    | [c1, c2] =>
      -- a match cannot start at offset 2 inside the leading separator
      exfalso
      simp only [lchain, wrapPat, sepToken, List.cons_append, List.nil_append,
        List.append_assoc, List.cons.injEq] at hst
      obtain ⟨-, -, h3⟩ := hst
      obtain ⟨cx, tx, hx⟩ := List.exists_cons_of_ne_nil hxne
      rw [hx] at h3
      simp [List.cons.injEq] at h3
      exact mem_natStr_ne_z cx x (by rw [hx]; simp) h3.1.symm
    | c1 :: c2 :: c3 :: s' =>
      -- the match starts at offset ≥ 3: it lies beyond the leading separator
      right
      apply ih
      have hst' : s' ++ (wrapPat sepToken a ++ t) = natStr x ++ lchain xs := by
        have hh := hst
        simp only [lchain, sepToken, List.cons_append, List.nil_append,
          List.append_assoc, List.cons.injEq] at hh
        exact hh.2.2.2
      rcases List.append_eq_append_iff.mp hst' with ⟨w, hw1, hw2⟩ | ⟨w, hw1, hw2⟩
      · match w with
        | [] =>
          simp only [List.nil_append] at hw2
          exact ⟨[], t, by simp [hw2]⟩
        | c :: w' =>
          exfalso
          have hcx : c ∈ natStr x := by rw [hw1]; simp
          have : c = 'z' := by
            have := hw2
            simp [wrapPat, sepToken, List.cons.injEq] at this
            exact this.1.symm
          exact mem_natStr_ne_z c x hcx this
      · exact ⟨w, t, by rw [hw2, List.append_assoc]⟩

theorem wrap_infix_iff_mem (a : Nat) (path : List Nat) (hne : path ≠ []) :
    wrapPat sepToken a <:+: lineageString sepToken path ↔ a ∈ path := by
  obtain ⟨x, xs, rfl⟩ := List.exists_cons_of_ne_nil hne
  rw [lineageString_eq_lchain]
  exact ⟨mem_of_wrap_inside a (x :: xs), wrap_infix_of_mem a (x :: xs)⟩

theorem hasPrefixCL_iff :
    ∀ p l : List Char, hasPrefixCL p l = true ↔ ∃ t, p ++ t = l := by
  intro p
  induction p with
  | nil =>
    intro l
    simp [hasPrefixCL]
  | cons c p ih =>
    intro l
    cases l with
    | nil =>
      simp [hasPrefixCL]
    | cons d l' =>
      rw [hasPrefixCL]
      constructor
      · intro h
        have hcd : c = d := by
          have := (Bool.and_eq_true _ _).mp h
          exact beq_iff_eq.mp this.1
        obtain ⟨t, ht⟩ := (ih l').mp ((Bool.and_eq_true _ _).mp h).2
        exact ⟨t, by rw [List.cons_append, ht, hcd]⟩
      · intro ⟨t, ht⟩
        rw [List.cons_append] at ht
        have hcd : c = d := (List.cons.injEq _ _ _ _).mp ht |>.1
        have htl : p ++ t = l' := (List.cons.injEq _ _ _ _).mp ht |>.2
        refine (Bool.and_eq_true _ _).mpr ⟨beq_iff_eq.mpr hcd, (ih l').mpr ⟨t, htl⟩⟩

theorem hasSubCL_iff :
    ∀ l p : List Char, hasSubCL p l = true ↔ p <:+: l := by
  intro l
  induction l with
  | nil =>
    intro p
    rw [hasSubCL, hasPrefixCL_iff]
    constructor
    · intro ⟨t, ht⟩
      have hp : p = [] := by
        cases p with
        | nil => rfl
        | cons c p' => simp at ht
      exact ⟨[], [], by simp [hp]⟩
    · intro ⟨s, t, hst⟩
      have h1 := List.append_eq_nil.mp hst
      have h2 := List.append_eq_nil.mp h1.1
      exact ⟨[], by simp [h2.2]⟩
  | cons d l' ih =>
    intro p
    rw [hasSubCL, Bool.or_eq_true, hasPrefixCL_iff, ih]
    constructor
    · rintro (⟨t, ht⟩ | ⟨s, t, hst⟩)
      · exact ⟨[], t, by simp [ht]⟩
      · exact ⟨d :: s, t, by rw [← hst]; rfl⟩
    · rintro ⟨s, t, hst⟩
      cases s with
      | nil => exact Or.inl ⟨t, by simpa using hst⟩
      | cons e s' =>
        right
        have h' : s' ++ (p ++ t) = l' := by
          have := (List.cons.injEq _ _ _ _).mp (by simpa using hst)
          exact this.2
        exact ⟨s', t, by rw [List.append_assoc]; exact h'⟩

theorem lineageLoop_append (db : Store) :
    ∀ (fuel cur : Nat) (a b : List Nat),
      lineageLoop db fuel cur (a ++ b) = (lineageLoop db fuel cur b).map (fun l => a ++ l) := by
  intro fuel
  induction fuel with
  | zero => intro cur a b; rfl
  | succ fuel ih =>
    intro cur a b
    rw [lineageLoop, lineageLoop]
    by_cases h1 : cur = 1
    · simp [h1]
    · rw [if_neg h1, if_neg h1]
      cases hp : parent db cur with
      | none => rfl
      | some p =>
        show lineageLoop db fuel p (a ++ b ++ [p]) =
          Option.map (fun l => a ++ l) (lineageLoop db fuel p (b ++ [p]))
        rw [List.append_assoc]
        exact ih p a (b ++ [p])

theorem lineage_shape (db : Store) (fuel y : Nat) (path : List Nat)
    (h : lineage db fuel y = some path) :
    ∃ ext, path = ext ++ [y] := by
  unfold lineage at h
  cases hloop : lineageLoop db fuel y [y] with
  | none => rw [hloop] at h; simp at h
  | some out =>
    rw [hloop] at h
    simp at h
    have : lineageLoop db fuel y ([y] ++ []) =
        (lineageLoop db fuel y []).map (fun l => [y] ++ l) := lineageLoop_append db fuel y [y] []
    simp at this
    rw [hloop] at this
    cases hloop0 : lineageLoop db fuel y [] with
    | none => rw [hloop0] at this; simp at this
    | some out0 =>
      rw [hloop0] at this
      simp at this
      refine ⟨out0.reverse, ?_⟩
      rw [← h, this]
      simp

theorem self_mem_lineage (db : Store) (fuel y : Nat) (path : List Nat)
    (h : lineage db fuel y = some path) : y ∈ path := by
  obtain ⟨ext, rfl⟩ := lineage_shape db fuel y path h
  simp

theorem lineage_getLast (db : Store) (fuel y : Nat) (path : List Nat)
    (h : lineage db fuel y = some path) : path.getLast? = some y := by
  obtain ⟨ext, rfl⟩ := lineage_shape db fuel y path h
  exact List.getLast?_concat ext

theorem lineage_step (db : Store) (fuel y p : Nat) (path : List Nat)
    (h : lineage db (fuel + 1) y = some path) (hy : y ≠ 1)
    (hp : parent db y = some p) :
    ∃ path', lineage db fuel p = some path' ∧ path = path' ++ [y] := by
  unfold lineage at h
  rw [lineageLoop, if_neg hy, hp] at h
  have h' : (lineageLoop db fuel p ([y] ++ [p])).map List.reverse = some path := h
  rw [lineageLoop_append db fuel p [y] [p]] at h'
  cases hloop : lineageLoop db fuel p [p] with
  | none => rw [hloop] at h'; simp at h'
  | some out =>
    rw [hloop] at h'
    simp at h'
    refine ⟨out.reverse, by simp [lineage, hloop], ?_⟩
    rw [← h']

theorem lineage_root_case (db : Store) (fuel : Nat) (path : List Nat)
    (h : lineage db (fuel + 1) 1 = some path) : path = [1] := by
  unfold lineage at h
  rw [lineageLoop, if_pos rfl] at h
  simpa using h.symm

theorem lineage_no_parent (db : Store) (fuel y : Nat) (path : List Nat)
    (h : lineage db (fuel + 1) y = some path) (hy : y ≠ 1)
    (hp : parent db y = none) : path = [y] := by
  unfold lineage at h
  rw [lineageLoop, if_neg hy, hp] at h
  simpa using h.symm

theorem find?_eq_of_nodup (db : Store) (r : Row) (tid : Nat)
    (hnd : (db.map Row.taxa_id).Nodup) (hr : r ∈ db) (hid : r.taxa_id = tid) :
    db.find? (fun r' => r'.taxa_id == tid) = some r := by
  induction db with
  | nil => simp at hr
  | cons h0 rest ih =>
    by_cases hmatch : h0.taxa_id = tid
    · rw [List.find?_cons_of_pos _ (by simpa using hmatch)]
      rcases List.mem_cons.mp hr with rfl | hmem
      · rfl
      · exfalso
        have : r.taxa_id ∈ rest.map Row.taxa_id := List.mem_map.mpr ⟨r, hmem, rfl⟩
        rw [List.map_cons, List.nodup_cons] at hnd
        exact hnd.1 (by rw [hid, ← hmatch] at this; exact this)
    · rw [List.find?_cons_of_neg _ (by simpa using hmatch)]
      rcases List.mem_cons.mp hr with rfl | hmem
      · exact absurd hid hmatch
      · exact ih (by rw [List.map_cons, List.nodup_cons] at hnd; exact hnd.2) hmem

theorem parent_eq_of_mem (db : Store) (r : Row)
    (hnd : (db.map Row.taxa_id).Nodup) (hr : r ∈ db) :
    parent db r.taxa_id = some r.parent_taxa := by
  unfold parent
  rw [find?_eq_of_nodup db r r.taxa_id hnd hr rfl]
  rfl

theorem parent_some_elim (db : Store) (y p : Nat) (h : parent db y = some p) :
    ∃ r, r ∈ db ∧ r.taxa_id = y ∧ r.parent_taxa = p := by
  unfold parent at h
  cases hf : db.find? (fun r' => r'.taxa_id == y) with
  | none => rw [hf] at h; simp at h
  | some r =>
    rw [hf] at h
    refine ⟨r, List.mem_of_find?_eq_some hf, ?_, by simpa using h⟩
    have := List.find?_some hf
    simpa using this

theorem chain_to_one (db : Store)
    (hroot1 : ∀ r ∈ db, r.taxa_id = 1 → r.parent_taxa = 1)
    (x y : Nat) (h : Relation.ReflTransGen (stepRel db) x y) : y = 1 → x = 1 := by
  induction h with
  | refl => intro h1; exact h1
  | @tail b c hxb hbc ih =>
    intro h1
    subst h1
    obtain ⟨r, hr, hrc, hrb⟩ := hbc
    exact ih (by rw [← hrb, hroot1 r hr hrc])

theorem mem_lineage_of_reachable (db : Store)
    (hnd : (db.map Row.taxa_id).Nodup)
    (hroot1 : ∀ r ∈ db, r.taxa_id = 1 → r.parent_taxa = 1)
    (x y : Nat) (h : Relation.ReflTransGen (stepRel db) x y) :
    ∀ (fuel : Nat) (path : List Nat), lineage db fuel y = some path → x ∈ path := by
  induction h with
  | refl =>
    intro fuel path hl
    exact self_mem_lineage db fuel x path hl
  | @tail b c hxb hbc ih =>
    intro fuel path hl
    obtain ⟨r, hr, hrc, hrb⟩ := hbc
    cases fuel with
    | zero => simp [lineage, lineageLoop] at hl
    | succ fuel =>
      by_cases hc1 : c = 1
      · subst hc1
        have hb1 : b = 1 := by rw [← hrb, hroot1 r hr hrc]
        have hx1 : x = 1 := chain_to_one db hroot1 x b hxb hb1
        have := lineage_root_case db fuel path hl
        rw [this, hx1]
        simp
      · have hpc : parent db c = some b := by
          have := parent_eq_of_mem db r hnd hr
          rw [hrc, hrb] at this
          exact this
        obtain ⟨path', hlin', rfl⟩ := lineage_step db fuel c b path hl hc1 hpc
        exact List.mem_append.mpr (Or.inl (ih fuel path' hlin'))

theorem reachable_of_mem_lineage (db : Store) :
    ∀ (fuel y : Nat) (path : List Nat), lineage db fuel y = some path →
      ∀ x ∈ path, Relation.ReflTransGen (stepRel db) x y := by
  intro fuel
  induction fuel with
  | zero =>
    intro y path h
    simp [lineage, lineageLoop] at h
  | succ fuel ih =>
    intro y path h x hx
    by_cases hy1 : y = 1
    · subst hy1
      rw [lineage_root_case db fuel path h] at hx
      simp at hx
      rw [hx]
    · cases hp : parent db y with
      | none =>
        rw [lineage_no_parent db fuel y path h hy1 hp] at hx
        simp at hx
        rw [hx]
      | some p =>
        obtain ⟨path', hlin', rfl⟩ := lineage_step db fuel y p path h hy1 hp
        rcases List.mem_append.mp hx with hx' | hx'
        · have hstep : stepRel db p y := by
            obtain ⟨r, hr, hry, hrp⟩ := parent_some_elim db y p hp
            exact ⟨r, hr, hry, hrp⟩
          exact Relation.ReflTransGen.tail (ih p path' hlin' x hx') hstep
        · simp at hx'
          rw [hx']

theorem transGen_of_ne {α : Type} {rel : α → α → Prop} {x y : α}
    (h : Relation.ReflTransGen rel x y) : x ≠ y → Relation.TransGen rel x y := by
  induction h with
  | refl => intro hne; exact absurd rfl hne
  | @tail b c hxb hbc ih =>
    intro _
    by_cases hxb' : x = b
    · rw [hxb']
      exact Relation.TransGen.single hbc
    · exact Relation.TransGen.tail (ih hxb') hbc

theorem transGen_last_row (db : Store) (x y : Nat)
    (h : Relation.TransGen (stepRel db) x y) : ∃ r, r ∈ db ∧ r.taxa_id = y := by
  induction h with
  | single hb =>
    obtain ⟨r, hr, hry, -⟩ := hb
    exact ⟨r, hr, hry⟩
  | tail hab hbc ih =>
    obtain ⟨r, hr, hry, -⟩ := hbc
    exact ⟨r, hr, hry⟩

theorem constructLineage_mem (db0 : Store) (fuel : Nat) :
    ∀ (rows rows' : Store), constructLineage db0 fuel rows = some rows' →
      ∀ r' ∈ rows', ∃ r, r ∈ rows ∧ ∃ p, lineage db0 fuel r.taxa_id = some p ∧
        r' = Row.mk r.taxa_id r.taxa_name r.parent_taxa r.rank (lineageString sepToken p) := by
  intro rows
  induction rows with
  | nil =>
    intro rows' h r' hr'
    simp [constructLineage] at h
    rw [h] at hr'
    simp at hr'
  | cons r0 rest ih =>
    intro rows' h r' hr'
    rw [constructLineage] at h
    split at h
    · simp at h
    · rename_i p0 hl
      split at h
      · simp at h
      · rename_i rest' hc
        have hrows : rows' = Row.mk r0.taxa_id r0.taxa_name r0.parent_taxa r0.rank
            (lineageString sepToken p0) :: rest' := by
          simpa using h.symm
        subst hrows
        rcases List.mem_cons.mp hr' with rfl | hmem
        · exact ⟨r0, List.mem_cons_self r0 rest, p0, hl, rfl⟩
        · obtain ⟨r, hr, p, hp, heq⟩ := ih rest' hc r' hmem
          exact ⟨r, List.mem_cons_of_mem r0 hr, p, hp, heq⟩

theorem constructLineage_mem_rev (db0 : Store) (fuel : Nat) :
    ∀ (rows rows' : Store), constructLineage db0 fuel rows = some rows' →
      ∀ r ∈ rows, ∃ p, lineage db0 fuel r.taxa_id = some p ∧
        Row.mk r.taxa_id r.taxa_name r.parent_taxa r.rank (lineageString sepToken p) ∈ rows' := by
  intro rows
  induction rows with
  | nil =>
    intro rows' h r hr
    simp at hr
  | cons r0 rest ih =>
    intro rows' h r hr
    rw [constructLineage] at h
    split at h
    · simp at h
    · rename_i p0 hl
      split at h
      · simp at h
      · rename_i rest' hc
        have hrows : rows' = Row.mk r0.taxa_id r0.taxa_name r0.parent_taxa r0.rank
            (lineageString sepToken p0) :: rest' := by
          simpa using h.symm
        subst hrows
        rcases List.mem_cons.mp hr with rfl | hmem
        · exact ⟨p0, hl, List.mem_cons_self _ _⟩
        · obtain ⟨p, hp, hmem'⟩ := ih rest' hc r hmem
          exact ⟨p, hp, List.mem_cons_of_mem _ hmem'⟩

theorem constructLineage_parent_pres (db0 : Store) (fuel : Nat) :
    ∀ (rows rows' : Store), constructLineage db0 fuel rows = some rows' → ∀ tid : Nat,
      (rows'.find? (fun r => r.taxa_id == tid)).map Row.parent_taxa =
        (rows.find? (fun r => r.taxa_id == tid)).map Row.parent_taxa := by
  intro rows
  induction rows with
  | nil =>
    intro rows' h tid
    simp [constructLineage] at h
    rw [← h]
  | cons r0 rest ih =>
    intro rows' h tid
    rw [constructLineage] at h
    split at h
    · simp at h
    · rename_i p0 hl
      split at h
      · simp at h
      · rename_i rest' hc
        have hrows : rows' = Row.mk r0.taxa_id r0.taxa_name r0.parent_taxa r0.rank
            (lineageString sepToken p0) :: rest' := by
          simpa using h.symm
        subst hrows
        by_cases hmatch : r0.taxa_id = tid
        · rw [List.find?_cons_of_pos _ (by simpa using hmatch),
            List.find?_cons_of_pos _ (by simpa using hmatch)]
          rfl
        · rw [List.find?_cons_of_neg _ (by simpa using hmatch),
            List.find?_cons_of_neg _ (by simpa using hmatch)]
          exact ih rest' hc tid

theorem buildLineages_parent (db db' : Store) (fuel : Nat)
    (hb : buildLineages db fuel = some db') (tid : Nat) :
    parent db' tid = parent db tid :=
  constructLineage_parent_pres db fuel db db' hb tid

theorem constructLineage_ids (db0 : Store) (fuel : Nat) :
    ∀ (rows rows' : Store), constructLineage db0 fuel rows = some rows' →
      rows'.map Row.taxa_id = rows.map Row.taxa_id := by
  intro rows
  induction rows with
  | nil =>
    intro rows' h
    simp [constructLineage] at h
    rw [← h]
  | cons r0 rest ih =>
    intro rows' h
    rw [constructLineage] at h
    split at h
    · simp at h
    · rename_i p0 hl
      split at h
      · simp at h
      · rename_i rest' hc
        have hrows : rows' = Row.mk r0.taxa_id r0.taxa_name r0.parent_taxa r0.rank
            (lineageString sepToken p0) :: rest' := by
          simpa using h.symm
        subst hrows
        simp [ih rest' hc]

theorem buildLineages_stepRel (db db' : Store) (fuel : Nat)
    (hb : buildLineages db fuel = some db') (p c : Nat) :
    stepRel db' p c ↔ stepRel db p c := by
  constructor
  · intro ⟨r', hr', hc, hp⟩
    obtain ⟨r, hr, q, hq, heq⟩ := constructLineage_mem db fuel db db' hb r' hr'
    refine ⟨r, hr, ?_, ?_⟩
    · rw [heq] at hc
      exact hc
    · rw [heq] at hp
      exact hp
  · intro ⟨r, hr, hc, hp⟩
    obtain ⟨q, hq, hmem⟩ := constructLineage_mem_rev db fuel db db' hb r hr
    exact ⟨_, hmem, hc, hp⟩

theorem childStep_iff_stepRel (sep : List Char) (db : Store) (p c : Nat) :
    childStep sep db p c ↔ stepRel db p c := by
  unfold childStep stepRel children
  simp only [Bool.false_eq_true, if_false, List.mem_map, List.mem_filter, beq_iff_eq]
  constructor
  · intro ⟨r, ⟨hr, hp⟩, hc⟩
    exact ⟨r, hr, hc, hp⟩
  · intro ⟨r, hr, hc, hp⟩
    exact ⟨r, ⟨hr, hp⟩, hc⟩

theorem mem_children_deep (sep : List Char) (db : Store) (tid y : Nat) :
    y ∈ children sep db tid true ↔
      ∃ r, r ∈ db ∧ r.taxa_id = y ∧ y ≠ tid ∧ wrapPat sep tid <:+: r.lineage := by
  unfold children
  simp only [if_true, List.mem_map, List.mem_filter, Bool.and_eq_true, bne_iff_ne]
  constructor
  · intro ⟨r, ⟨hr, hsub, hne⟩, hc⟩
    exact ⟨r, hr, hc, by rw [← hc]; exact hne, (hasSubCL_iff r.lineage _).mp hsub⟩
  · intro ⟨r, hr, hc, hne, hsub⟩
    exact ⟨r, ⟨hr, (hasSubCL_iff r.lineage _).mpr hsub, by rw [hc]; exact hne⟩, hc⟩

theorem children_nodup (sep : List Char) (db : Store) (tid : Nat) (deep : Bool)
    (hnd : (db.map Row.taxa_id).Nodup) : (children sep db tid deep).Nodup := by
  unfold children
  split
  · exact List.Nodup.sublist (List.Sublist.map Row.taxa_id (List.filter_sublist db)) hnd
  · exact List.Nodup.sublist (List.Sublist.map Row.taxa_id (List.filter_sublist db)) hnd

theorem innerScan_none (i x : Nat) :
    ∀ (l : List Nat) (j : Nat), innerScan i x j l = none ↔ x ∉ l := by
  intro l
  induction l with
  | nil => intro j; simp [innerScan]
  | cons b rest ih =>
    intro j
    rw [innerScan]
    by_cases hxb : x = b
    · rw [if_pos hxb]
      simp [hxb]
    · rw [if_neg hxb, ih (j + 1)]
      simp [hxb]

theorem innerScan_mem (i x : Nat) :
    ∀ (l : List Nat) (j : Nat), x ∈ l →
      ∃ k, innerScan i x j l = some (i + (j + k), x) ∧ l[k]? = some x ∧
        ∀ k' < k, l[k']? ≠ some x := by
  intro l
  induction l with
  | nil => intro j h; simp at h
  | cons b rest ih =>
    intro j hmem
    by_cases hxb : x = b
    · refine ⟨0, ?_, by simp [hxb], ?_⟩
      · rw [innerScan, if_pos hxb]
        simp
      · intro k' hk'
        omega
    · have hrest : x ∈ rest := by
        rcases List.mem_cons.mp hmem with h | h
        · exact absurd h hxb
        · exact h
      obtain ⟨k, h1, h2, h3⟩ := ih (j + 1) hrest
      have harith : i + (j + 1 + k) = i + (j + (k + 1)) := by omega
      refine ⟨k + 1, ?_, by simpa using h2, ?_⟩
      · rw [innerScan, if_neg hxb, h1, harith]
      · intro k' hk'
        cases k' with
        | zero =>
          intro hcon
          simp at hcon
          exact hxb hcon.symm
        | succ k'' =>
          rw [List.getElem?_cons_succ]
          exact h3 k'' (by omega)

theorem outerScan_mem (brev : List Nat) :
    ∀ (arev : List Nat) (i0 : Nat), (∃ x, x ∈ arev ∧ x ∈ brev) →
      ∃ d j x, outerScan i0 arev brev = some (i0 + d + j, x) ∧
        arev[d]? = some x ∧
        (∀ d' < d, ∀ y, arev[d']? = some y → y ∉ brev) ∧
        brev[j]? = some x ∧ (∀ j' < j, brev[j']? ≠ some x) := by
  intro arev
  induction arev with
  | nil =>
    intro i0 ⟨x, hx, _⟩
    simp at hx
  | cons hd rest ih =>
    intro i0 hsh
    by_cases hmem : hd ∈ brev
    · obtain ⟨k, h1, h2, h3⟩ := innerScan_mem i0 hd brev 0 hmem
      refine ⟨0, k, hd, ?_, by simp, ?_, h2, h3⟩
      · rw [outerScan, h1]
        simp
      · intro d' hd'
        exact absurd hd' (Nat.not_lt_zero d')
    · have hnone : innerScan i0 hd 0 brev = none := (innerScan_none i0 hd brev 0).mpr hmem
      have hsh' : ∃ x, x ∈ rest ∧ x ∈ brev := by
        obtain ⟨x, hx1, hx2⟩ := hsh
        rcases List.mem_cons.mp hx1 with rfl | hx1'
        · exact absurd hx2 hmem
        · exact ⟨x, hx1', hx2⟩
      obtain ⟨d, j, x, h1, h2, h3, h4, h5⟩ := ih (i0 + 1) hsh'
      refine ⟨d + 1, j, x, ?_, by simpa using h2, ?_, h4, h5⟩
      · rw [outerScan, hnone]
        show outerScan (i0 + 1) rest brev = some (i0 + (d + 1) + j, x)
        rw [h1]
        simp only [Option.some.injEq, Prod.mk.injEq]
        exact ⟨by omega, trivial⟩
      · intro d' hd' y hy
        cases d' with
        | zero =>
          simp at hy
          rw [← hy]
          exact hmem
        | succ d'' =>
          rw [List.getElem?_cons_succ] at hy
          exact h3 d'' (by omega) y hy

theorem flatMap_map {α β γ : Type} (f : α → β) (g : β → List γ) :
    ∀ l : List α, (l.map f).flatMap g = l.flatMap (fun x => g (f x)) := by
  intro l
  induction l with
  | nil => rfl
  | cons h t ih => simp [List.flatMap_cons, ih]

theorem flatMap_map_some (sep : List Char) (db : Store) :
    ∀ l : List Nat,
      (l.map some).flatMap (fun e => (childrenOfOpt sep db e).map some) =
        (l.flatMap (fun t => children sep db t false)).map some := by
  intro l
  induction l with
  | nil => rfl
  | cons h t ih =>
    simp only [List.map_cons, List.flatMap_cons, ih, List.map_append]
    rfl

theorem relativesLoop_layers (sep : List Char) (db : Store) :
    ∀ (n : Nat) (start : List Nat),
      relativesLoop sep db n (start.map some) =
        ((List.range n).flatMap (fun i => nthLayer sep db i start)).map some := by
  intro n
  induction n with
  | zero => intro start; simp [relativesLoop]
  | succ n ih =>
    intro start
    rw [relativesLoop, flatMap_map_some sep db start,
      ih (start.flatMap (fun t => children sep db t false)),
      List.range_succ_eq_map, List.flatMap_cons, flatMap_map Nat.succ _ (List.range n),
      List.map_append]
    rfl

theorem is_parent_iff (sep : List Char) (db : Store) (c p : Nat) :
    is_parent sep db c p = true ↔
      ∃ r, r ∈ db ∧ r.taxa_id = c ∧ wrapPat sep p <:+: r.lineage := by
  unfold is_parent
  rw [List.any_eq_true]
  constructor
  · intro ⟨r, hr, hcond⟩
    rw [Bool.and_eq_true] at hcond
    exact ⟨r, hr, beq_iff_eq.mp hcond.1, (hasSubCL_iff r.lineage _).mp hcond.2⟩
  · intro ⟨r, hr, hc, hsub⟩
    exact ⟨r, hr, (Bool.and_eq_true _ _).mpr
      ⟨beq_iff_eq.mpr hc, (hasSubCL_iff r.lineage _).mpr hsub⟩⟩

theorem row_unique (db : Store) (hnd : (db.map Row.taxa_id).Nodup)
    (r1 r2 : Row) (h1 : r1 ∈ db) (h2 : r2 ∈ db) (h : r1.taxa_id = r2.taxa_id) :
    r1 = r2 := by
  have e1 := find?_eq_of_nodup db r1 r1.taxa_id hnd h1 rfl
  have e2 := find?_eq_of_nodup db r2 r1.taxa_id hnd h2 h.symm
  rw [e1] at e2
  simpa using e2

theorem buildLineages_total (db db' : Store) (fuel : Nat)
    (hb : buildLineages db fuel = some db') (r : Row) (hr : r ∈ db) :
    ∃ p, lineage db fuel r.taxa_id = some p := by
  obtain ⟨p, hp, -⟩ := constructLineage_mem_rev db fuel db db' hb r hr
  exact ⟨p, hp⟩

/-- Claim C5 (code bug): `Taxonomy.__init__` passes the fetched row tuple —
not the lineage string inside it — to `re.split`, so the bare `except`
catches the resulting `TypeError` and `self.sep` is always the default
`'zzz'`, even on a store whose root row has a nonempty lineage; the
spec-prescribed derivation (prefix of the root's lineage before its first
digit) would give `'qqq'` on `dbQQQ`. -/
theorem c5_sep_always_default :
    (∀ db : Store, taxonomyInitSep db = sepToken) ∧
    taxonomyInitSep dbQQQ = sepToken ∧
    specInitSep dbQQQ = ['q', 'q', 'q'] ∧
    taxonomyInitSep dbQQQ ≠ specInitSep dbQQQ := by
  refine ⟨?_, by decide, by decide, by decide⟩
  intro db
  unfold taxonomyInitSep
  cases db.find? (fun r => r.taxa_id == 1) with
  | none => rfl
  | some r => rfl

/-- Claim C9: `is_child(child_tid, parent_tid)` evaluates
`is_parent(parent_tid, parent_tid)`: it is true exactly when some stored row
has id `parent_tid` and the wrapped form of `parent_tid` occurs inside that
row's own lineage, and the result is entirely independent of `child_tid`, so
no child/parent relation between the two arguments is tested. -/
theorem c9_is_child_degenerate (sep : List Char) (db : Store) (c p : Nat) :
    is_child sep db c p = is_parent sep db p p ∧
    (is_child sep db c p = true ↔
      ∃ r, r ∈ db ∧ r.taxa_id = p ∧ wrapPat sep p <:+: r.lineage) ∧
    (∀ c₂, is_child sep db c p = is_child sep db c₂ p) := by
  refine ⟨rfl, ?_, fun c₂ => rfl⟩
  exact is_parent_iff sep db p p

/-- Claim C10: for an id with no stored row, `parent` returns the not-found
value, the shallow child list of that value is empty and so cannot contain
the id, and `siblings` therefore hits the `ValueError` of `list.remove`
(modelled by `none`) instead of returning an empty or not-found result. -/
theorem c10_siblings_unknown_raises (sep : List Char) (db : Store) (tid : Nat)
    (h : ∀ r ∈ db, r.taxa_id ≠ tid) :
    parent db tid = none ∧ childrenOfOpt sep db (parent db tid) = [] ∧
    siblings sep db tid = none := by
  have hp : parent db tid = none := by
    unfold parent
    rw [List.find?_eq_none.mpr (fun r hr => by simpa using h r hr)]
    rfl
  refine ⟨hp, by rw [hp]; rfl, ?_⟩
  unfold siblings
  rw [hp]
  show pyRemove ([] : List Nat) tid = none
  unfold pyRemove
  rw [if_neg (by simp)]

theorem c10_siblings_unknown_raises_witness :
    (∀ r ∈ dbDemo, r.taxa_id ≠ 9999) ∧
    (parent dbDemo 9999 = none ∧ childrenOfOpt sepToken dbDemo (parent dbDemo 9999) = [] ∧
      siblings sepToken dbDemo 9999 = none) :=
  ⟨by decide, c10_siblings_unknown_raises sepToken dbDemo 9999 (by decide)⟩

/-- Claim C6: lookups for a name or id that is not stored return `none`
(`name_to_tid`, `tid_to_name`, `tid_to_rank`, `parent`), and `is_parent`
returns `false`, both when the unknown id is the queried node and when it is
the candidate ancestor of a stored node of a built store whose path elements
are all stored; every modelled operation is total, so nothing raises. -/
theorem c6_unknown_lookups (db db' : Store) (fuel : Nat) (nm : String)
    (uid N B : Nat) (path : List Nat)
    (hname : ∀ r ∈ db', r.taxa_name ≠ nm)
    (huid : ∀ r ∈ db', r.taxa_id ≠ uid)
    (hb : buildLineages db fuel = some db')
    (hlin : lineage db fuel N = some path)
    (hstored : ∀ x ∈ path, ∃ r, r ∈ db ∧ r.taxa_id = x)
    (hB : ∀ r ∈ db, r.taxa_id ≠ B) :
    name_to_tid db' nm = none ∧ tid_to_name db' uid = none ∧
    tid_to_rank db' uid = none ∧ parent db' uid = none ∧
    (∀ A, is_parent sepToken db' uid A = false) ∧
    is_parent sepToken db' N B = false := by
  have hfind : db'.find? (fun r => r.taxa_id == uid) = none :=
    List.find?_eq_none.mpr (fun r hr => by simpa using huid r hr)
  refine ⟨?_, ?_, ?_, ?_, ?_, ?_⟩
  · unfold name_to_tid
    rw [List.find?_eq_none.mpr (fun r hr => by simpa using hname r hr)]
    rfl
  · unfold tid_to_name
    rw [hfind]
    rfl
  · unfold tid_to_rank
    rw [hfind]
    rfl
  · unfold parent
    rw [hfind]
    rfl
  · intro A
    rw [Bool.eq_false_iff]
    intro hcon
    obtain ⟨r, hr, hid, -⟩ := (is_parent_iff sepToken db' uid A).mp hcon
    exact huid r hr hid
  · rw [Bool.eq_false_iff]
    intro hcon
    obtain ⟨r', hr', hid', hsub⟩ := (is_parent_iff sepToken db' N B).mp hcon
    obtain ⟨r0, hr0, p0, hp0, heq⟩ := constructLineage_mem db fuel db db' hb r' hr'
    have hid0 : r0.taxa_id = N := by rw [heq] at hid'; exact hid'
    have hp0' : p0 = path := by
      rw [hid0, hlin] at hp0
      exact (Option.some.inj hp0).symm
    have hne : path ≠ [] := List.ne_nil_of_mem (self_mem_lineage db fuel N path hlin)
    have hsub' : wrapPat sepToken B <:+: lineageString sepToken p0 := by
      rw [heq] at hsub
      exact hsub
    rw [hp0'] at hsub'
    obtain ⟨rB, hrB, hidB⟩ := hstored B ((wrap_infix_iff_mem B path hne).mp hsub')
    exact hB rB hrB hidB

theorem c6_unknown_lookups_witness :
    ((∀ r ∈ dbDemoBuilt, r.taxa_name ≠ "Plants") ∧
      (∀ r ∈ dbDemoBuilt, r.taxa_id ≠ 9999) ∧
      buildLineages dbDemo 5 = some dbDemoBuilt ∧
      lineage dbDemo 5 4 = some [1, 2, 4] ∧
      (∀ x ∈ [1, 2, 4], ∃ r, r ∈ dbDemo ∧ r.taxa_id = x) ∧
      (∀ r ∈ dbDemo, r.taxa_id ≠ 9999)) ∧
    (name_to_tid dbDemoBuilt "Plants" = none ∧ tid_to_name dbDemoBuilt 9999 = none ∧
      tid_to_rank dbDemoBuilt 9999 = none ∧ parent dbDemoBuilt 9999 = none ∧
      (∀ A, is_parent sepToken dbDemoBuilt 9999 A = false) ∧
      is_parent sepToken dbDemoBuilt 4 9999 = false) :=
  ⟨⟨by decide, by decide, by decide, by decide, by decide, by decide⟩,
    c6_unknown_lookups dbDemo dbDemoBuilt 5 "Plants" 9999 4 9999 [1, 2, 4]
      (by decide) (by decide) (by decide) (by decide) (by decide) (by decide)⟩

/-- Claim C7: when walking up `degree` levels from `tid`'s parent reaches an
ancestor, `relatives(tid, degree)` equals the level-by-level concatenation —
without deduplication — of the breadth-first layers of the subtree below
that ancestor: the loop runs `degree * 2` times, visiting and accumulating
the layers at depths `0, ..., degree * 2 - 1`, so the flattened result may
repeat ids and may include `tid` itself and its direct ancestors. -/
theorem c7_relatives_layers (sep : List Char) (db : Store) (tid degree anc : Nat)
    (hanc : (parentOfOpt db)^[degree] (parent db tid) = some anc)
    (hdeg : 1 ≤ degree) :
    relatives sep db tid degree =
      ((List.range (degree * 2)).flatMap (fun i => nthLayer sep db i [anc])).map some := by
  unfold relatives
  rw [hanc]
  have h1 : ([some anc] : List (Option Nat)) = ([anc] : List Nat).map some := rfl
  rw [h1, relativesLoop_layers]

theorem c7_relatives_layers_witness :
    ((parentOfOpt dbDemo)^[1] (parent dbDemo 4) = some 1 ∧ 1 ≤ 1) ∧
    relatives sepToken dbDemo 4 1 =
      ((List.range (1 * 2)).flatMap (fun i => nthLayer sepToken dbDemo i [1])).map some :=
  ⟨⟨by decide, by decide⟩,
    c7_relatives_layers sepToken dbDemo 4 1 1 (by decide) (by decide)⟩

/-- Claim C8: for a stored non-root node, `siblings(tid)` succeeds, equals
`children(parent(tid), deep=False)` with `tid` removed, and never contains
`tid` itself. -/
theorem c8_siblings (sep : List Char) (db : Store) (tid : Nat) (r : Row)
    (hnd : (db.map Row.taxa_id).Nodup)
    (hr : r ∈ db) (hid : r.taxa_id = tid) (hne1 : tid ≠ 1) :
    ∃ p, parent db tid = some p ∧
      siblings sep db tid = some ((children sep db p false).erase tid) ∧
      tid ∉ (children sep db p false).erase tid := by
  have hpar : parent db tid = some r.parent_taxa := by
    have := parent_eq_of_mem db r hnd hr
    rw [hid] at this
    exact this
  have hmem : tid ∈ children sep db r.parent_taxa false :=
    (childStep_iff_stepRel sep db r.parent_taxa tid).mpr ⟨r, hr, hid, rfl⟩
  refine ⟨r.parent_taxa, hpar, ?_, ?_⟩
  · unfold siblings
    rw [hpar]
    show pyRemove (children sep db r.parent_taxa false) tid = _
    unfold pyRemove
    rw [if_pos hmem]
  · have hnodup := children_nodup sep db r.parent_taxa false hnd
    intro hcon
    exact ((List.Nodup.mem_erase_iff hnodup).mp hcon).1 rfl

theorem c8_siblings_witness :
    ((List.map Row.taxa_id dbDemo).Nodup ∧
      Row.mk 2 "Bacteria" 1 "superkingdom" [] ∈ dbDemo ∧
      (Row.mk 2 "Bacteria" 1 "superkingdom" []).taxa_id = 2 ∧ (2 : Nat) ≠ 1) ∧
    (∃ p, parent dbDemo 2 = some p ∧
      siblings sepToken dbDemo 2 = some ((children sepToken dbDemo p false).erase 2) ∧
      2 ∉ (children sepToken dbDemo p false).erase 2) :=
  ⟨⟨by decide, by decide, by decide, by decide⟩,
    c8_siblings sepToken dbDemo 2 (Row.mk 2 "Bacteria" 1 "superkingdom" [])
      (by decide) (by decide) (by decide) (by decide)⟩

/-- Claim C1: after bulk construction, every stored node whose parent chain
reaches the root (its computed path starts with id 1) has stored lineage
exactly `SEP + (root-to-node ids joined by SEP) + SEP`; the node's own id is
the last path element, the root id 1 the first, and for every ancestor `A`
on the path the wrapped string `SEP + A + SEP` occurs as a substring of the
stored lineage. -/
theorem c1_lineage_invariant (db db' : Store) (fuel N : Nat) (path : List Nat)
    (hb : buildLineages db fuel = some db')
    (hlin : lineage db fuel N = some path)
    (hroot : path.head? = some 1) :
    ((∃ r, r ∈ db ∧ r.taxa_id = N) → ∃ r', r' ∈ db' ∧ r'.taxa_id = N) ∧
    ∀ r' ∈ db', r'.taxa_id = N →
      r'.lineage = lineageString sepToken path ∧
      path.getLast? = some N ∧ path.head? = some 1 ∧
      ∀ A ∈ path, wrapPat sepToken A <:+: r'.lineage := by
  have hne : path ≠ [] := List.ne_nil_of_mem (self_mem_lineage db fuel N path hlin)
  constructor
  · intro ⟨r, hr, hid⟩
    obtain ⟨p, hp, hmem⟩ := constructLineage_mem_rev db fuel db db' hb r hr
    exact ⟨_, hmem, hid⟩
  · intro r' hr' hid
    obtain ⟨r, hr, p, hp, heq⟩ := constructLineage_mem db fuel db db' hb r' hr'
    have hidr : r.taxa_id = N := by rw [heq] at hid; exact hid
    have hppath : p = path := by
      rw [hidr, hlin] at hp
      exact (Option.some.inj hp).symm
    have hlineq : r'.lineage = lineageString sepToken path := by
      rw [heq, hppath]
    refine ⟨hlineq, lineage_getLast db fuel N path hlin, hroot, ?_⟩
    intro A hA
    rw [hlineq]
    exact (wrap_infix_iff_mem A path hne).mpr hA

theorem c1_lineage_invariant_witness :
    (buildLineages dbDemo 5 = some dbDemoBuilt ∧
      lineage dbDemo 5 4 = some [1, 2, 4] ∧
      ([1, 2, 4] : List Nat).head? = some 1) ∧
    (((∃ r, r ∈ dbDemo ∧ r.taxa_id = 4) → ∃ r', r' ∈ dbDemoBuilt ∧ r'.taxa_id = 4) ∧
      ∀ r' ∈ dbDemoBuilt, r'.taxa_id = 4 →
        r'.lineage = lineageString sepToken [1, 2, 4] ∧
        ([1, 2, 4] : List Nat).getLast? = some 4 ∧
        ([1, 2, 4] : List Nat).head? = some 1 ∧
        ∀ A ∈ [1, 2, 4], wrapPat sepToken A <:+: r'.lineage) :=
  ⟨⟨by decide, by decide, by decide⟩,
    c1_lineage_invariant dbDemo dbDemoBuilt 5 4 [1, 2, 4]
      (by decide) (by decide) (by decide)⟩

/-- Claim C3: on the built store (unique ids), `is_parent(N, A)` — the code's
spelling of `is_ancestor(A, N)` — is true exactly when `A` is one of the path
elements of `lineage(N)`, equivalently when the wrapped form of `A` is a
substring of N's stored lineage; in particular `is_ancestor(N, N)` is true
for every stored node and every id outside the path tests false. -/
theorem c3_is_ancestor_iff (db db' : Store) (fuel N : Nat) (path : List Nat) (r : Row)
    (hb : buildLineages db fuel = some db')
    (hnd : (db.map Row.taxa_id).Nodup)
    (hr : r ∈ db) (hid : r.taxa_id = N)
    (hlin : lineage db fuel N = some path) :
    (∀ A, is_parent sepToken db' N A = true ↔ A ∈ path) ∧
    is_parent sepToken db' N N = true ∧
    (∀ B, B ∉ path → is_parent sepToken db' N B = false) := by
  have hne : path ≠ [] := List.ne_nil_of_mem (self_mem_lineage db fuel N path hlin)
  have hmain : ∀ A, is_parent sepToken db' N A = true ↔ A ∈ path := by
    intro A
    rw [is_parent_iff]
    constructor
    · intro ⟨r', hr', hid', hsub⟩
      obtain ⟨r0, hr0, p0, hp0, heq⟩ := constructLineage_mem db fuel db db' hb r' hr'
      have hid0 : r0.taxa_id = N := by rw [heq] at hid'; exact hid'
      have hp0' : p0 = path := by
        rw [hid0, hlin] at hp0
        exact (Option.some.inj hp0).symm
      have hsub' : wrapPat sepToken A <:+: lineageString sepToken p0 := by
        rw [heq] at hsub
        exact hsub
      rw [hp0'] at hsub'
      exact (wrap_infix_iff_mem A path hne).mp hsub'
    · intro hA
      obtain ⟨p, hp, hmem⟩ := constructLineage_mem_rev db fuel db db' hb r hr
      have hppath : p = path := by
        rw [hid, hlin] at hp
        exact (Option.some.inj hp).symm
      refine ⟨_, hmem, hid, ?_⟩
      show wrapPat sepToken A <:+: lineageString sepToken p
      rw [hppath]
      exact (wrap_infix_iff_mem A path hne).mpr hA
  refine ⟨hmain, (hmain N).mpr (self_mem_lineage db fuel N path hlin), ?_⟩
  intro B hB
  rw [Bool.eq_false_iff]
  intro hcon
  exact hB ((hmain B).mp hcon)

theorem c3_is_ancestor_iff_witness :
    (buildLineages dbDemo 5 = some dbDemoBuilt ∧
      (List.map Row.taxa_id dbDemo).Nodup ∧
      Row.mk 4 "Proteobacteria" 2 "phylum" [] ∈ dbDemo ∧
      (Row.mk 4 "Proteobacteria" 2 "phylum" []).taxa_id = 4 ∧
      lineage dbDemo 5 4 = some [1, 2, 4]) ∧
    ((∀ A, is_parent sepToken dbDemoBuilt 4 A = true ↔ A ∈ [1, 2, 4]) ∧
      is_parent sepToken dbDemoBuilt 4 4 = true ∧
      (∀ B, B ∉ [1, 2, 4] → is_parent sepToken dbDemoBuilt 4 B = false)) :=
  ⟨⟨by decide, by decide, by decide, by decide, by decide⟩,
    c3_is_ancestor_iff dbDemo dbDemoBuilt 5 4 [1, 2, 4]
      (Row.mk 4 "Proteobacteria" 2 "phylum" [])
      (by decide) (by decide) (by decide) (by decide) (by decide)⟩

/-- Claim C4: when the two reversed lineages share at least one id,
`nearest_common_ancestor(a, b)` scans the pairs in the nested order — outer
over a's reversed lineage with index `i`, inner over b's reversed lineage
with index `j` — and returns `(i + j, id)` for the first equal pair under
that order: `i` is the least outer index whose id occurs in b's reversed
lineage, and `j` the least inner index holding that id. -/
theorem c4_nca_nested_scan (db : Store) (fuel a b : Nat) (la lb : List Nat)
    (ha : lineage db fuel a = some la) (hb : lineage db fuel b = some lb)
    (hsh : ∃ x, x ∈ la ∧ x ∈ lb) :
    ∃ i j x, nearestCommonAncestor db fuel a b = some (some (i + j, x)) ∧
      la.reverse[i]? = some x ∧
      (∀ i' < i, ∀ y, la.reverse[i']? = some y → y ∉ lb.reverse) ∧
      lb.reverse[j]? = some x ∧ (∀ j' < j, lb.reverse[j']? ≠ some x) := by
  obtain ⟨x, hx1, hx2⟩ := hsh
  obtain ⟨d, j, x', h1, h2, h3, h4, h5⟩ := outerScan_mem lb.reverse la.reverse 0
    ⟨x, List.mem_reverse.mpr hx1, List.mem_reverse.mpr hx2⟩
  refine ⟨d, j, x', ?_, h2, h3, h4, h5⟩
  unfold nearestCommonAncestor
  rw [ha, hb]
  show some (outerScan 0 la.reverse lb.reverse) = some (some (d + j, x'))
  rw [h1]
  simp

theorem c4_nca_nested_scan_witness :
    (lineage dbDemo 5 4 = some [1, 2, 4] ∧ lineage dbDemo 5 3 = some [1, 3] ∧
      (∃ x, x ∈ [1, 2, 4] ∧ x ∈ [1, 3])) ∧
    (∃ i j x, nearestCommonAncestor dbDemo 5 4 3 = some (some (i + j, x)) ∧
      ([1, 2, 4] : List Nat).reverse[i]? = some x ∧
      (∀ i' < i, ∀ y, ([1, 2, 4] : List Nat).reverse[i']? = some y →
        y ∉ ([1, 3] : List Nat).reverse) ∧
      ([1, 3] : List Nat).reverse[j]? = some x ∧
      (∀ j' < j, ([1, 3] : List Nat).reverse[j']? ≠ some x)) :=
  ⟨⟨by decide, by decide, by decide⟩,
    c4_nca_nested_scan dbDemo 5 4 3 [1, 2, 4] [1, 3]
      (by decide) (by decide) (by decide)⟩

/-- Claim C2: on a built store satisfying the data model (unique ids; the
root row 1 is its own parent), `children(tid, deep=True)` contains exactly
the ids in the transitive closure of repeatedly applying
`children(x, deep=False)` starting from `tid`, excluding `tid` itself — the
substring scan over stored lineage strings computes the recursive
descendant set. -/
theorem c2_deep_children_closure (db db' : Store) (fuel tid : Nat)
    (hb : buildLineages db fuel = some db')
    (hnd : (db.map Row.taxa_id).Nodup)
    (hroot1 : ∀ r ∈ db, r.taxa_id = 1 → r.parent_taxa = 1)
    (htid : ∃ r, r ∈ db ∧ r.taxa_id = tid) :
    ∀ y, y ∈ children sepToken db' tid true ↔
      (Relation.TransGen (childStep sepToken db') tid y ∧ y ≠ tid) := by
  have hconv : ∀ p c, childStep sepToken db' p c ↔ stepRel db p c := by
    intro p c
    rw [childStep_iff_stepRel]
    exact buildLineages_stepRel db db' fuel hb p c
  intro y
  constructor
  · intro hy
    obtain ⟨r', hr', hidy, hne, hsub⟩ := (mem_children_deep sepToken db' tid y).mp hy
    obtain ⟨r0, hr0, p0, hp0, heq⟩ := constructLineage_mem db fuel db db' hb r' hr'
    have hid0 : r0.taxa_id = y := by rw [heq] at hidy; exact hidy
    have hne0 : p0 ≠ [] :=
      List.ne_nil_of_mem (self_mem_lineage db fuel r0.taxa_id p0 hp0)
    have hsub' : wrapPat sepToken tid <:+: lineageString sepToken p0 := by
      rw [heq] at hsub
      exact hsub
    have htmem : tid ∈ p0 := (wrap_infix_iff_mem tid p0 hne0).mp hsub'
    have hreach : Relation.ReflTransGen (stepRel db) tid r0.taxa_id :=
      reachable_of_mem_lineage db fuel r0.taxa_id p0 hp0 tid htmem
    rw [hid0] at hreach
    have htg : Relation.TransGen (stepRel db) tid y :=
      transGen_of_ne hreach (fun h => hne h.symm)
    exact ⟨Relation.TransGen.mono (fun a b h => (hconv a b).mpr h) htg, hne⟩
  · intro ⟨htg, hne⟩
    have htg' : Relation.TransGen (stepRel db) tid y :=
      Relation.TransGen.mono (fun a b h => (hconv a b).mp h) htg
    obtain ⟨ry, hry, hidy⟩ := transGen_last_row db tid y htg'
    obtain ⟨py, hpy⟩ := buildLineages_total db db' fuel hb ry hry
    have hpy' : lineage db fuel y = some py := by rw [← hidy]; exact hpy
    have htmem : tid ∈ py :=
      mem_lineage_of_reachable db hnd hroot1 tid y
        (Relation.TransGen.to_reflTransGen htg') fuel py hpy'
    have hnepy : py ≠ [] := List.ne_nil_of_mem (self_mem_lineage db fuel y py hpy')
    obtain ⟨p2, hp2, hmem'⟩ := constructLineage_mem_rev db fuel db db' hb ry hry
    have hp2' : p2 = py := by
      rw [hidy, hpy'] at hp2
      exact (Option.some.inj hp2).symm
    apply (mem_children_deep sepToken db' tid y).mpr
    refine ⟨_, hmem', hidy, hne, ?_⟩
    show wrapPat sepToken tid <:+: lineageString sepToken p2
    rw [hp2']
    exact (wrap_infix_iff_mem tid py hnepy).mpr htmem

theorem c2_deep_children_closure_witness :
    (buildLineages dbDemo 5 = some dbDemoBuilt ∧
      (List.map Row.taxa_id dbDemo).Nodup ∧
      (∀ r ∈ dbDemo, r.taxa_id = 1 → r.parent_taxa = 1) ∧
      (∃ r, r ∈ dbDemo ∧ r.taxa_id = 1)) ∧
    (∀ y, y ∈ children sepToken dbDemoBuilt 1 true ↔
      (Relation.TransGen (childStep sepToken dbDemoBuilt) 1 y ∧ y ≠ 1)) :=
  ⟨⟨by decide, by decide, by decide, by decide⟩,
    c2_deep_children_closure dbDemo dbDemoBuilt 5 1
      (by decide) (by decide) (by decide) (by decide)⟩
